import Mathlib

/-!
Verification of the `wt` git-worktree helper (`main.go`) against its
natural-language specification.  The pure text-processing kernels of the
program — the PR/MR listing parsers, the PR/MR reference extractor, the
branch enumerator, and the worktree-existence scan — are embedded below as
executable Lean functions over `List Char`, and the specification's claims
are settled as theorems about those functions.

Strings are modelled as `List Char` (Go iterates strings by rune in all the
relevant code paths, and every character involved is handled rune-wise by
`strings.TrimSpace`, `strings.Split`, `strings.Fields` and the regexp
engine).  Go's regexps use Perl-style leftmost-first (backtracking)
semantics; each regexp of the source is translated into an explicit
structurally-recursive matcher whose search order mirrors the
greedy/lazy/backtracking order of the pattern, as documented at each
definition.
-/

namespace WT

/-- Shorthand: the character list underlying a string literal. -/
def chs (s : String) : List Char := s.data

/-- Go `unicode.IsSpace`: '\t', '\n', '\v', '\f', '\r', ' ', U+0085, U+00A0,
and the Unicode White_Space code points above Latin-1
(U+1680, U+2000–U+200A, U+2028, U+2029, U+202F, U+205F, U+3000).
This is the character class used by `strings.TrimSpace` and
`strings.Fields`. -/
def goIsSpace (c : Char) : Bool :=
  c.toNat = 0x09 || c.toNat = 0x0A || c.toNat = 0x0B || c.toNat = 0x0C
  || c.toNat = 0x0D || c.toNat = 0x20
  || c.toNat = 0x85 || c.toNat = 0xA0 || c.toNat = 0x1680
  || (0x2000 ≤ c.toNat && c.toNat ≤ 0x200A)
  || c.toNat = 0x2028 || c.toNat = 0x2029 || c.toNat = 0x202F
  || c.toNat = 0x205F || c.toNat = 0x3000

/-- The character class `\s` of Go's `regexp` package: `[\t\n\f\r ]`. -/
def isWsRe (c : Char) : Bool :=
  c.toNat = 0x09 || c.toNat = 0x0A || c.toNat = 0x0C || c.toNat = 0x0D
  || c.toNat = 0x20

/-- The character class `\d` / `[0-9]` of Go's `regexp` package:
`'0' ≤ c ∧ c ≤ '9'`. -/
def isDigitCh (c : Char) : Bool :=
  0x30 ≤ c.toNat && c.toNat ≤ 0x39

/-- Go `strings.TrimSpace`: drop `unicode.IsSpace` characters from both ends. -/
def goTrimSpace (l : List Char) : List Char :=
  ((l.dropWhile goIsSpace).reverse.dropWhile goIsSpace).reverse

/-- Go `strings.Split(s, "\n")`: split at every newline, keeping empty
pieces; splitting the empty string yields `[[]]`. -/
def splitNL : List Char → List (List Char)
  | [] => [[]]
  | c :: s =>
    if c = '\n' then [] :: splitNL s
    else
      match splitNL s with
      | t :: ts => (c :: t) :: ts
      | [] => [[c]]

/-- Go `strings.Contains(hay, ndl)`: some suffix of `hay` starts with `ndl`. -/
def containsStr (hay ndl : List Char) : Bool :=
  hay.tails.any (fun t => ndl.isPrefixOf t)

/-- Go `strings.TrimPrefix(l, p)`: drop `p` from the front if it is a prefix,
otherwise return `l` unchanged (the prefix is stripped at most once). -/
def trimPfx (p l : List Char) : List Char :=
  if p.isPrefixOf l then l.drop p.length else l

/-- Helper for Go `strings.Fields`: split at every `unicode.IsSpace`
character, keeping empty pieces. -/
def fieldsAux : List Char → List (List Char)
  | [] => [[]]
  | c :: s =>
    if goIsSpace c then [] :: fieldsAux s
    else
      match fieldsAux s with
      | t :: ts => (c :: t) :: ts
      | [] => [[c]]

/-- Go `strings.Fields`: the maximal runs of non-whitespace characters. -/
def fieldsL (l : List Char) : List (List Char) :=
  (fieldsAux l).filter (· ≠ [])

/-! ### Parser A — `getOpenPRs` (main.go lines 222–242)

The Go code splits `strings.TrimSpace(output)` on `"\n"`, skips empty
lines, applies `strings.SplitN(line, "\t", 2)` and, when that yields two
parts, appends `parts[0]` to `numbers` and `"#" + parts[0] + ": " + parts[1]`
to `labels`. -/

/-- Go `strings.SplitN(line, "\t", 2)`: at most two pieces, split at the
first tab; a line without a tab yields a single piece. -/
def splitN2Tab (l : List Char) : List (List Char) :=
  match l.dropWhile (· ≠ '\t') with
  | [] => [l]
  | _ :: b => [l.takeWhile (· ≠ '\t'), b]

/-- The line loop of `getOpenPRs`, building the `numbers` and `labels`
slices in lockstep exactly as the Go loop appends to them. -/
def prPairs : List (List Char) → List (List Char) × List (List Char)
  | [] => ([], [])
  | l :: ls =>
    let rest := prPairs ls
    if l = [] then rest
    else
      match splitN2Tab l with
      | [a, b] => (a :: rest.1, ('#' :: (a ++ ':' :: ' ' :: b)) :: rest.2)
      | _ => rest

/-- `getOpenPRs`' parse of the `gh pr list` output text (the subprocess
invocation and its possible failure are outside the parsing model; the Go
error return is non-nil only when the subprocess itself fails). -/
def getOpenPRs (out : List Char) : List (List Char) × List (List Char) :=
  prPairs (splitNL (goTrimSpace out))

/-! ### Parser B — `getOpenMRs` (main.go lines 244–262)

The Go code runs `regexp.MustCompile("^!(\\d+)\\s+[^\\s]+\\s+(.+?)\\s+\\(")`
over each raw line of the output (split on `"\n"`, no trimming) and, on a
match, appends `matches[1]` to `numbers` and
`"!" + matches[1] + ": " + strings.TrimSpace(matches[2])` to `labels`.

The pattern is anchored at the start (`^`) and Go's regexp has Perl
leftmost-first semantics.  The translation below follows the backtracking
order literally:

* `(\d+)`, the first `\s+` and `[^\s]+` each consume their maximal run:
  giving characters back would force the immediately following,
  class-disjoint token to match a character it rejects, so every
  backtracking alternative fails at once and the maximal run is the only
  viable choice (and the run must be non-empty).
* the second `\s+` is greedy, so the longest whitespace run is tried first
  and shorter ones only on failure (`tailMatch` recurses before falling
  back);
* `(.+?)` is lazy: the shortest non-empty title is tried first
  (`lazyTitle` checks the continuation after each single character), where
  `.` matches any character except `'\n'`;
* the final `\s+\(` accepts when at least one `\s` character is followed,
  within the same whitespace run, by a literal `'('` (`wsThenParen`). -/

/-- Does `s` start with zero or more `\s` characters followed by `'('`? -/
def parenAfterWsStar : List Char → Bool
  | [] => false
  | c :: s => c = '(' || (isWsRe c && parenAfterWsStar s)

/-- Does `s` match `\s+\(` at its start, i.e. one or more `\s` characters
immediately followed by `'('`? -/
def wsThenParen : List Char → Bool
  | [] => false
  | c :: s => isWsRe c && parenAfterWsStar s

/-- The lazy capture `(.+?)` followed by `\s+\(`: the shortest non-empty
prefix of non-newline characters whose continuation matches `\s+\(`.
Returns the captured title. -/
def lazyTitle : List Char → Option (List Char)
  | [] => none
  | c :: s =>
    if c = '\n' then none
    else if wsThenParen s then some [c]
    else (lazyTitle s).map (c :: ·)

/-- The tail pattern `\s+(.+?)\s+\(`: the leading `\s+` is greedy, so the
longest whitespace prefix is preferred (recurse first), falling back to
ending the whitespace here and starting the lazy title. -/
def tailMatch : List Char → Option (List Char)
  | [] => none
  | c :: s =>
    if isWsRe c then
      match tailMatch s with
      | some t => some t
      | none => lazyTitle s
    else none

/-- The match of `^!(\d+)\s+[^\s]+\s+(.+?)\s+\(` against one line, returning
the two captures (number, title) on success. -/
def mrMatch (l : List Char) : Option (List Char × List Char) :=
  match l with
  | [] => none
  | c :: r0 =>
    if c = '!' then
      let d := r0.takeWhile isDigitCh
      let r1 := r0.dropWhile isDigitCh
      if d = [] then none
      else
        let w1 := r1.takeWhile isWsRe
        let r2 := r1.dropWhile isWsRe
        if w1 = [] then none
        else
          let st := r2.takeWhile (fun c => !isWsRe c)
          let r3 := r2.dropWhile (fun c => !isWsRe c)
          if st = [] then none
          else
            match tailMatch r3 with
            | some t => some (d, t)
            | none => none
    else none

/-- The line loop of `getOpenMRs`, building `numbers` and `labels` in
lockstep exactly as the Go loop appends to them. -/
def mrPairs : List (List Char) → List (List Char) × List (List Char)
  | [] => ([], [])
  | l :: ls =>
    let rest := mrPairs ls
    match mrMatch l with
    | some (n, t) => (n :: rest.1, ('!' :: (n ++ ':' :: ' ' :: goTrimSpace t)) :: rest.2)
    | none => rest

/-- `getOpenMRs`' parse of the `glab mr list` output text (the raw output is
split on newlines without trimming). -/
def getOpenMRs (out : List Char) : List (List Char) × List (List Char) :=
  mrPairs (splitNL out)

/-! ### Reference extractor — `getPRNumber` (main.go lines 99–119)

`getPRNumber` tries, in order:
`^https://github\.com/.*/pull/([0-9]+)`,
`^https://gitlab\.com/.*∕-∕merge_requests/([0-9]+)` (the two slashes around
the hyphen are ASCII in the source; they are written here as `∕` to avoid
comment syntax), and
`^[0-9]+$`; otherwise it returns the error
`"invalid PR/MR number or URL: " + input`.

For the two URL patterns (anchored at the start, Perl leftmost-first
semantics): the literal prefix must match at position 0; `.*` is greedy
over non-newline characters, so the matcher prefers the *deepest* position
at which the literal mid part (`/pull/` resp. `∕-∕merge_requests/`)
followed by at least one digit matches, backtracking towards the front on
failure and never crossing a `'\n'`; the final `([0-9]+)` captures the
maximal digit run there (nothing follows it in the pattern, so the first —
greedy, maximal — choice is kept). -/

/-- Does `M` followed by at least one digit match at the start of `s`?
Returns the maximal digit run (the `([0-9]+)` capture) on success. -/
def midDigits (M s : List Char) : Option (List Char) :=
  if M.isPrefixOf s then
    let d := (s.drop M.length).takeWhile isDigitCh
    if d = [] then none else some d
  else none

/-- Backtracking search of `.*` + `M` + `[0-9]+`: prefer the deepest match
position (greedy `.*`), never skipping past a `'\n'` (`.` rejects it). -/
def scanLast (M : List Char) : List Char → Option (List Char)
  | [] => midDigits M []
  | c :: s =>
    if c = '\n' then midDigits M (c :: s)
    else
      match scanLast M s with
      | some d => some d
      | none => midDigits M (c :: s)

/-- The match of `^https://github\.com/.*/pull/([0-9]+)` against `input`. -/
def githubNumber (input : List Char) : Option (List Char) :=
  if (chs "https://github.com/").isPrefixOf input then
    scanLast (chs "/pull/") (input.drop (chs "https://github.com/").length)
  else none

/-- The match of `^https://gitlab\.com/.*∕-∕merge_requests/([0-9]+)`
(slashes around the hyphen written as `∕` to avoid comment syntax; the
source pattern uses ASCII slashes, as the string literal below does)
against `input`. -/
def gitlabNumber (input : List Char) : Option (List Char) :=
  if (chs "https://gitlab.com/").isPrefixOf input then
    scanLast (chs "/-/merge_requests/") (input.drop (chs "https://gitlab.com/").length)
  else none

/-- `getPRNumber`: GitHub URL pattern, then GitLab URL pattern, then the
pure-digit pattern `^[0-9]+$`, else the error naming the input. -/
def getPRNumber (input : List Char) : Except (List Char) (List Char) :=
  match githubNumber input with
  | some d => .ok d
  | none =>
    match gitlabNumber input with
    | some d => .ok d
    | none =>
      if input ≠ [] && input.all isDigitCh then .ok input
      else .error (chs "invalid PR/MR number or URL: " ++ input)

/-! ### Branch enumerator — `getAvailableBranches` (main.go lines 158–199)

Per raw line of the `git branch -a --format=%(refname:short)` output:
trim; skip if empty; skip if it has prefix `origin/HEAD` or contains `->`;
strip a leading `origin/`; skip if the result is `origin` or `upstream`;
insert into a map.  The Go function returns the map's keys, whose iteration
order is unspecified, so the faithful observable is the resulting set,
modelled as a `Finset`. -/

/-- The per-line filtering pipeline of `getAvailableBranches`. -/
def processLine (line : List Char) : Option (List Char) :=
  let branch := goTrimSpace line
  if branch = [] then none
  else if (chs "origin/HEAD").isPrefixOf branch || containsStr branch (chs "->") then none
  else
    let b := trimPfx (chs "origin/") branch
    if b = chs "origin" || b = chs "upstream" then none
    else some b

/-- The set of branch names produced by `getAvailableBranches` from the
listing text. -/
def getAvailableBranches (out : List Char) : Finset (List Char) :=
  ((splitNL out).filterMap processLine).toFinset

/-! ### Worktree existence — `worktreeExists` (main.go lines 121–140)

If the `git worktree list` invocation fails, return `("", false)`.
Otherwise scan the lines for the first one containing `"[" + branch + "]"`;
on a hit whose `strings.Fields` is non-empty, return its first field with
`true`; if no line qualifies, return `("", false)`. -/

/-- The line loop of `worktreeExists`. -/
def wtLineScan (pat : List Char) : List (List Char) → List Char × Bool
  | [] => ([], false)
  | l :: ls =>
    if containsStr l pat then
      match fieldsL l with
      | f :: _ => (f, true)
      | [] => wtLineScan pat ls
    else wtLineScan pat ls

/-- `worktreeExists branch listing`: `listing` is the output of
`git worktree list` when it succeeded, `none` when the command failed. -/
def worktreeExists (branch : List Char) (listing : Option (List Char)) :
    List Char × Bool :=
  match listing with
  | none => ([], false)
  | some out => wtLineScan ('[' :: (branch ++ [']'])) (splitNL out)

end WT

/-! ### Toolkit lemmas -/

namespace WT

theorem takeWhile_app {p : Char → Bool} {a b : List Char}
    (ha : ∀ c ∈ a, p c = true) (hb : ∀ c, b.head? = some c → p c = false) :
    (a ++ b).takeWhile p = a := by
  induction a with
  | nil =>
    cases b with
    | nil => rfl
    | cons c s =>
      have hc : p c = false := hb c rfl
      simp [List.takeWhile_cons, hc]
  | cons c s ih =>
    have hc : p c = true := ha c (by simp)
    simp only [List.cons_append, List.takeWhile_cons, hc, if_true]
    exact congrArg (c :: ·) (ih (fun x hx => ha x (by simp [hx])))

theorem dropWhile_app {p : Char → Bool} {a b : List Char}
    (ha : ∀ c ∈ a, p c = true) (hb : ∀ c, b.head? = some c → p c = false) :
    (a ++ b).dropWhile p = b := by
  induction a with
  | nil =>
    cases b with
    | nil => rfl
    | cons c s =>
      have hc : p c = false := hb c rfl
      simp [List.dropWhile_cons, hc]
  | cons c s ih =>
    have hc : p c = true := ha c (by simp)
    simp only [List.cons_append, List.dropWhile_cons, hc, if_true]
    exact ih (fun x hx => ha x (by simp [hx]))

theorem dropWhile_all {p : Char → Bool} {l : List Char}
    (h : ∀ c ∈ l, p c = true) : l.dropWhile p = [] := by
  induction l with
  | nil => rfl
  | cons c s ih =>
    rw [List.dropWhile_cons, if_pos (h c (by simp))]
    exact ih (fun x hx => h x (by simp [hx]))

theorem dropWhile_head_false {p : Char → Bool} {l : List Char}
    (h : ∀ c, l.head? = some c → p c = false) : l.dropWhile p = l := by
  cases l with
  | nil => rfl
  | cons c s =>
    rw [List.dropWhile_cons, if_neg]
    simp [h c rfl]

theorem mem_of_mem_dropWhile {p : Char → Bool} {l : List Char} {c : Char}
    (h : c ∈ l.dropWhile p) : c ∈ l := by
  induction l with
  | nil =>
    rw [List.dropWhile_nil] at h
    exact h
  | cons d s ih =>
    rw [List.dropWhile_cons] at h
    by_cases hd : p d = true
    · rw [if_pos hd] at h
      exact List.mem_cons_of_mem _ (ih h)
    · rw [if_neg hd] at h
      exact h

theorem splitNL_ne_nil (l : List Char) : splitNL l ≠ [] := by
  induction l with
  | nil => simp [splitNL]
  | cons c s ih =>
    by_cases h : c = '\n'
    · simp [splitNL, h]
    · simp only [splitNL, if_neg h]
      cases hs : splitNL s with
      | nil => simp
      | cons t ts => simp

theorem splitNL_single {a : List Char} (h : '\n' ∉ a) : splitNL a = [a] := by
  induction a with
  | nil => rfl
  | cons c s ih =>
    have hc : c ≠ '\n' := by intro hc; exact h (by simp [hc])
    have hs : '\n' ∉ s := fun hx => h (by simp [hx])
    simp [splitNL, hc, ih hs]

theorem splitNL_append {a b : List Char} (h : '\n' ∉ a) :
    splitNL (a ++ '\n' :: b) = a :: splitNL b := by
  induction a with
  | nil => simp [splitNL]
  | cons c s ih =>
    have hc : c ≠ '\n' := by intro hc; exact h (by simp [hc])
    have hs : '\n' ∉ s := fun hx => h (by simp [hx])
    simp [splitNL, hc, ih hs]

theorem mem_of_mem_splitNL : ∀ {s l : List Char} {c : Char},
    l ∈ splitNL s → c ∈ l → c ∈ s := by
  intro s
  induction s with
  | nil =>
    intro l c hl hc
    simp only [splitNL, List.mem_singleton] at hl
    subst hl
    exact absurd hc (List.not_mem_nil c)
  | cons d t ih =>
    intro l c hl hc
    by_cases hd : d = '\n'
    · simp only [splitNL, if_pos hd, List.mem_cons] at hl
      rcases hl with rfl | hl
      · exact absurd hc (List.not_mem_nil c)
      · exact List.mem_cons_of_mem _ (ih hl hc)
    · rcases hr : splitNL t with _ | ⟨u, us⟩
      · exact absurd hr (splitNL_ne_nil t)
      · simp only [splitNL, if_neg hd, hr, List.mem_cons] at hl
        rcases hl with rfl | hl
        · rcases List.mem_cons.mp hc with rfl | hc2
          · exact List.mem_cons_self _ _
          · exact List.mem_cons_of_mem _
              (ih (by rw [hr]; exact List.mem_cons_self u us) hc2)
        · exact List.mem_cons_of_mem _
            (ih (by rw [hr]; exact List.mem_cons_of_mem u hl) hc)

theorem isWsRe_goIsSpace {c : Char} (h : isWsRe c = true) : goIsSpace c = true := by
  simp only [isWsRe, Bool.or_eq_true, decide_eq_true_eq] at h
  simp only [goIsSpace, Bool.or_eq_true, Bool.and_eq_true, decide_eq_true_eq]
  omega

theorem isDigitCh_not_goIsSpace {c : Char} (h : isDigitCh c = true) :
    goIsSpace c = false := by
  simp only [isDigitCh, Bool.and_eq_true, decide_eq_true_eq] at h
  simp only [goIsSpace, Bool.or_eq_false_iff, Bool.and_eq_false_iff,
    decide_eq_false_iff_not]
  omega

theorem isDigitCh_not_isWsRe {c : Char} (h : isDigitCh c = true) :
    isWsRe c = false := by
  simp only [isDigitCh, Bool.and_eq_true, decide_eq_true_eq] at h
  simp only [isWsRe, Bool.or_eq_false_iff, decide_eq_false_iff_not]
  omega

theorem isDigitCh_ne_nl {c : Char} (h : isDigitCh c = true) : c ≠ '\n' := by
  intro hc
  subst hc
  exact absurd h (by decide)

theorem goIsSpace_not_isDigitCh {c : Char} (h : goIsSpace c = true) :
    isDigitCh c = false := by
  simp only [goIsSpace, Bool.or_eq_true, Bool.and_eq_true, decide_eq_true_eq] at h
  simp only [isDigitCh, Bool.and_eq_false_iff, decide_eq_false_iff_not]
  omega

theorem goTrimSpace_nil : goTrimSpace [] = [] := rfl

theorem goTrimSpace_all_space {l : List Char} (h : ∀ c ∈ l, goIsSpace c = true) :
    goTrimSpace l = [] := by
  unfold goTrimSpace
  rw [dropWhile_all h]
  rfl

theorem goTrimSpace_left {w l : List Char} (h : ∀ c ∈ w, goIsSpace c = true) :
    goTrimSpace (w ++ l) = goTrimSpace l := by
  unfold goTrimSpace
  congr 1
  induction w with
  | nil => rfl
  | cons c s ih =>
    simp only [List.cons_append, List.dropWhile, h c (by simp)]
    exact ih (fun x hx => h x (by simp [hx]))

theorem goTrimSpace_eq_self {l : List Char}
    (h1 : ∀ c, l.head? = some c → goIsSpace c = false)
    (h2 : ∀ c, l.getLast? = some c → goIsSpace c = false) :
    goTrimSpace l = l := by
  unfold goTrimSpace
  rw [dropWhile_head_false h1, dropWhile_head_false, List.reverse_reverse]
  intro c hc
  rw [List.head?_reverse] at hc
  exact h2 c hc

theorem mem_of_containsStr {l p : List Char} {c : Char}
    (h : containsStr l p = true) (hc : c ∈ p) : c ∈ l := by
  simp only [containsStr, List.any_eq_true] at h
  obtain ⟨t, ht, hp⟩ := h
  have hsuf : t <:+ l := (List.mem_tails _ _).mp ht
  have hpre : p <+: t := List.isPrefixOf_iff_prefix.mp hp
  exact hsuf.sublist.mem (hpre.sublist.mem hc)

end WT

/-! ### Claim C1 — listing-parser invariants -/

namespace WT

theorem prPairs_forall2 (ls : List (List Char)) :
    List.Forall₂ (fun n lab => ∃ t, lab = '#' :: (n ++ ':' :: ' ' :: t))
      (prPairs ls).1 (prPairs ls).2 := by
  induction ls with
  | nil => exact List.Forall₂.nil
  | cons l ls ih =>
    by_cases hl : l = []
    · simpa [prPairs, hl] using ih
    · rcases hsp : splitN2Tab l with _ | ⟨a, _ | ⟨b, _ | _⟩⟩ <;>
        simp only [prPairs, if_neg hl, hsp] <;>
        first
          | exact ih
          | exact List.Forall₂.cons ⟨b, rfl⟩ ih

theorem mrPairs_forall2 (ls : List (List Char)) :
    List.Forall₂ (fun n lab => ∃ t, lab = '!' :: (n ++ ':' :: ' ' :: t))
      (mrPairs ls).1 (mrPairs ls).2 := by
  induction ls with
  | nil => exact List.Forall₂.nil
  | cons l ls ih =>
    rcases hm : mrMatch l with _ | ⟨n, t⟩ <;>
      simp only [mrPairs, hm] <;>
      first
        | exact ih
        | exact List.Forall₂.cons ⟨goTrimSpace t, rfl⟩ ih

theorem mrMatch_all_space {l : List Char} (h : ∀ c ∈ l, goIsSpace c = true) :
    mrMatch l = none := by
  cases l with
  | nil => rfl
  | cons c s =>
    have hc : c ≠ '!' := by
      intro hq
      have hsp := h c (List.mem_cons_self c s)
      rw [hq] at hsp
      exact absurd hsp (by decide)
    simp [mrMatch, hc]

theorem mrPairs_none {ls : List (List Char)} (h : ∀ l ∈ ls, mrMatch l = none) :
    mrPairs ls = ([], []) := by
  induction ls with
  | nil => rfl
  | cons l ls ih =>
    simp only [mrPairs, h l (by simp)]
    exact ih (fun x hx => h x (by simp [hx]))

/-- Claim C1: both listing parsers return two sequences of equal length; the
i-th label is the provider marker (`#` for Parser A, `!` for Parser B)
followed by the i-th identifier, a colon, a single space and the
corresponding title; and on input that is empty or all-whitespace both
parsers return two empty sequences. -/
theorem c1_listing_parsers :
    (∀ out : List Char,
      (getOpenPRs out).1.length = (getOpenPRs out).2.length ∧
      (getOpenMRs out).1.length = (getOpenMRs out).2.length ∧
      List.Forall₂ (fun n lab => ∃ t, lab = '#' :: (n ++ ':' :: ' ' :: t))
        (getOpenPRs out).1 (getOpenPRs out).2 ∧
      List.Forall₂ (fun n lab => ∃ t, lab = '!' :: (n ++ ':' :: ' ' :: t))
        (getOpenMRs out).1 (getOpenMRs out).2) ∧
    (∀ out : List Char, (∀ c ∈ out, goIsSpace c = true) →
      getOpenPRs out = ([], []) ∧ getOpenMRs out = ([], [])) := by
  constructor
  · intro out
    refine ⟨(prPairs_forall2 _).length_eq, (mrPairs_forall2 _).length_eq, ?_, ?_⟩
    · exact prPairs_forall2 _
    · exact mrPairs_forall2 _
  · intro out h
    constructor
    · unfold getOpenPRs
      rw [goTrimSpace_all_space h]
      rfl
    · unfold getOpenMRs
      rw [mrPairs_none]
      intro l hl
      exact mrMatch_all_space (fun c hc => h c (mem_of_mem_splitNL hl hc))

theorem c1_listing_parsers_witness :
    getOpenPRs (chs " \t \n  ") = ([], []) ∧ getOpenMRs (chs " \t \n  ") = ([], []) :=
  c1_listing_parsers.2 (chs " \t \n  ") (by decide)

end WT

/-! ### Claim C3 — Parser A splits on the first tab only -/

namespace WT

theorem splitN2Tab_split {a b : List Char} (ha : '\t' ∉ a) :
    splitN2Tab (a ++ '\t' :: b) = [a, b] := by
  have hall : ∀ c ∈ a, (decide ¬(c = '\t')) = true := by
    intro c hc
    simp only [decide_not, Bool.not_eq_true']
    simp only [decide_eq_false_iff_not]
    intro h
    exact ha (h ▸ hc)
  have hhd : ∀ c : Char, ('\t' :: b).head? = some c → (decide ¬(c = '\t')) = false := by
    intro c hc
    simp only [List.head?_cons, Option.some.injEq] at hc
    subst hc
    simp
  unfold splitN2Tab
  rw [dropWhile_app hall hhd, takeWhile_app hall hhd]

theorem splitN2Tab_no_tab {l : List Char} (h : '\t' ∉ l) : splitN2Tab l = [l] := by
  have : l.dropWhile (fun c => decide ¬(c = '\t')) = [] := by
    apply dropWhile_all
    intro c hc
    simp only [decide_not, Bool.not_eq_true', decide_eq_false_iff_not]
    intro hq
    exact h (hq ▸ hc)
  unfold splitN2Tab
  rw [this]

theorem prPairs_skip {bad : List Char} (h : '\t' ∉ bad) (ls : List (List Char)) :
    prPairs (bad :: ls) = prPairs ls := by
  by_cases hb : bad = []
  · simp [prPairs, hb]
  · simp [prPairs, hb, splitN2Tab_no_tab h]

/-- Claim C3: Parser A splits each line at the first tab only, keeping any
further tabs verbatim in the title part; a tab-free line contributes no
entry and does not shift the correspondence of later valid lines. -/
theorem c3_split_first_tab :
    (∀ a b : List Char, '\t' ∉ a → splitN2Tab (a ++ '\t' :: b) = [a, b]) ∧
    (∀ bad : List Char, '\t' ∉ bad → ∀ ls1 ls2 : List (List Char),
      prPairs (ls1 ++ bad :: ls2) = prPairs (ls1 ++ ls2)) ∧
    getOpenPRs (chs "7\tA\tB\tC") = ([chs "7"], [chs "#7: A\tB\tC"]) := by
  refine ⟨fun a b ha => splitN2Tab_split ha, ?_, by decide⟩
  intro bad hbad ls1 ls2
  induction ls1 with
  | nil => exact prPairs_skip hbad ls2
  | cons l ls ih => simp only [List.cons_append, prPairs, List.append_eq, ih]

theorem c3_split_first_tab_witness :
    splitN2Tab (chs "12" ++ '\t' :: chs "x\ty") = [chs "12", chs "x\ty"] ∧
    prPairs ([chs "1\ta"] ++ chs "nota b" :: [chs "2\tb"]) =
      prPairs ([chs "1\ta"] ++ [chs "2\tb"]) :=
  ⟨c3_split_first_tab.1 (chs "12") (chs "x\ty") (by decide),
   c3_split_first_tab.2.1 (chs "nota b") (by decide) [chs "1\ta"] [chs "2\tb"]⟩

end WT

/-! ### Claim C5 — Parser A line trimming (corrected) -/

namespace WT

theorem isDigitCh_ne_tab {c : Char} (h : isDigitCh c = true) : c ≠ '\t' := by
  intro hc
  subst hc
  exact absurd h (by decide)

theorem mem_of_head?_eq {l : List Char} {c : Char} (h : l.head? = some c) :
    c ∈ l := by
  cases l with
  | nil => exact absurd h (by simp)
  | cons d s =>
    simp only [List.head?_cons, Option.some.injEq] at h
    simp [h]

/-- Claim C5 counterexample: with input `"1\ta\n 2\tb"`, the second line
`" 2\tb"` keeps its leading space in the produced identifier, so the
identifiers are `["1", " 2"]`, not `["1", "2"]` — individual lines are not
trimmed before the tab split. -/
theorem c5_counterexample :
    (getOpenPRs (chs "1\ta\n 2\tb")).1 = [chs "1", chs " 2"] ∧
    chs " 2" ≠ chs "2" := by
  constructor
  · decide
  · decide

/-- Claim C5 amended: Parser A trims leading/trailing whitespace of the
whole output once, before splitting into lines; individual lines are not
trimmed.  A single-line input `<ws><number>\t<title>` therefore yields the
bare number as identifier (the global trim removes the leading whitespace),
while an interior line ` <number>\t<title>` keeps its leading space in the
identifier. -/
theorem c5_amended :
    (∀ w n t : List Char,
      (∀ c ∈ w, goIsSpace c = true) →
      n ≠ [] → (∀ c ∈ n, isDigitCh c = true) →
      t ≠ [] → '\n' ∉ t →
      (∀ c, t.getLast? = some c → goIsSpace c = false) →
      getOpenPRs (w ++ (n ++ '\t' :: t)) = ([n], ['#' :: (n ++ ':' :: ' ' :: t)])) ∧
    (∀ n1 t1 n2 t2 : List Char,
      n1 ≠ [] → (∀ c ∈ n1, isDigitCh c = true) →
      n2 ≠ [] → (∀ c ∈ n2, isDigitCh c = true) →
      '\n' ∉ t1 → '\n' ∉ t2 → t2 ≠ [] →
      (∀ c, t2.getLast? = some c → goIsSpace c = false) →
      (getOpenPRs ((n1 ++ '\t' :: t1) ++ '\n' :: (' ' :: (n2 ++ '\t' :: t2)))).1
        = [n1, ' ' :: n2]) := by
  constructor
  · intro w n t hw hn hdig ht hnl hlast
    have hline : goTrimSpace (w ++ (n ++ '\t' :: t)) = n ++ '\t' :: t := by
      rw [goTrimSpace_left hw]
      apply goTrimSpace_eq_self
      · intro c hc
        rw [List.head?_append_of_ne_nil n hn] at hc
        exact isDigitCh_not_goIsSpace (hdig c (mem_of_head?_eq hc))
      · intro c hc
        rw [List.getLast?_append_cons n '\t' t] at hc
        have h2 : List.getLast? ('\t' :: t) = List.getLast? t := by
          have e : '\t' :: t = ['\t'] ++ t := rfl
          rw [e, List.getLast?_append_of_ne_nil _ ht]
        rw [h2] at hc
        exact hlast c hc
    have hnn : '\n' ∉ n ++ '\t' :: t := by
      intro hmem
      rcases List.mem_append.mp hmem with h | h
      · exact isDigitCh_ne_nl (hdig _ h) rfl
      · rcases List.mem_cons.mp h with h | h
        · exact absurd h (by decide)
        · exact hnl h
    have hlne : n ++ '\t' :: t ≠ [] := by simp
    have hsp : splitN2Tab (n ++ '\t' :: t) = [n, t] :=
      splitN2Tab_split (fun hmem => isDigitCh_ne_tab (hdig _ hmem) rfl)
    unfold getOpenPRs
    rw [hline, splitNL_single hnn]
    simp [prPairs, hlne, hsp]
  · intro n1 t1 n2 t2 hn1 hd1 hn2 hd2 ht1 ht2 ht2n hlast
    have hAne : n1 ++ '\t' :: t1 ≠ [] := by simp
    have hnA : '\n' ∉ n1 ++ '\t' :: t1 := by
      intro hmem
      rcases List.mem_append.mp hmem with h | h
      · exact isDigitCh_ne_nl (hd1 _ h) rfl
      · rcases List.mem_cons.mp h with h | h
        · exact absurd h (by decide)
        · exact ht1 h
    have hnB : '\n' ∉ ' ' :: (n2 ++ '\t' :: t2) := by
      intro hmem
      rcases List.mem_cons.mp hmem with h | h
      · exact absurd h (by decide)
      · rcases List.mem_append.mp h with h | h
        · exact isDigitCh_ne_nl (hd2 _ h) rfl
        · rcases List.mem_cons.mp h with h | h
          · exact absurd h (by decide)
          · exact ht2 h
    have htrim :
        goTrimSpace ((n1 ++ '\t' :: t1) ++ '\n' :: (' ' :: (n2 ++ '\t' :: t2)))
          = (n1 ++ '\t' :: t1) ++ '\n' :: (' ' :: (n2 ++ '\t' :: t2)) := by
      apply goTrimSpace_eq_self
      · intro c hc
        rw [List.head?_append_of_ne_nil _ hAne,
            List.head?_append_of_ne_nil n1 hn1] at hc
        exact isDigitCh_not_goIsSpace (hd1 c (mem_of_head?_eq hc))
      · intro c hc
        rw [List.getLast?_append_cons _ '\n' _] at hc
        have h1 : List.getLast? ('\n' :: (' ' :: (n2 ++ '\t' :: t2)))
            = List.getLast? t2 := by
          have e : '\n' :: (' ' :: (n2 ++ '\t' :: t2))
              = ['\n', ' '] ++ (n2 ++ '\t' :: t2) := rfl
          rw [e, List.getLast?_append_of_ne_nil _ (by simp),
              List.getLast?_append_cons n2 '\t' t2]
          have e2 : '\t' :: t2 = ['\t'] ++ t2 := rfl
          rw [e2, List.getLast?_append_of_ne_nil _ ht2n]
        rw [h1] at hc
        exact hlast c hc
    have hspA : splitN2Tab (n1 ++ '\t' :: t1) = [n1, t1] :=
      splitN2Tab_split (fun hmem => isDigitCh_ne_tab (hd1 _ hmem) rfl)
    have hspB : splitN2Tab (' ' :: (n2 ++ '\t' :: t2)) = [' ' :: n2, t2] := by
      have e : ' ' :: (n2 ++ '\t' :: t2) = (' ' :: n2) ++ '\t' :: t2 := by simp
      rw [e]
      apply splitN2Tab_split
      intro hmem
      rcases List.mem_cons.mp hmem with h | h
      · exact absurd h (by decide)
      · exact isDigitCh_ne_tab (hd2 _ h) rfl
    unfold getOpenPRs
    rw [htrim, splitNL_append hnA, splitNL_single hnB]
    simp [prPairs, hAne, hspA, hspB]

theorem c5_amended_witness :
    getOpenPRs (chs "  " ++ (chs "12" ++ '\t' :: chs "Fix")) =
      ([chs "12"], ['#' :: (chs "12" ++ ':' :: ' ' :: chs "Fix")]) ∧
    (getOpenPRs ((chs "1" ++ '\t' :: chs "a") ++
        '\n' :: (' ' :: (chs "2" ++ '\t' :: chs "b")))).1 = [chs "1", ' ' :: chs "2"] :=
  ⟨c5_amended.1 (chs "  ") (chs "12") (chs "Fix") (by decide) (by decide)
      (by decide) (by decide) (by decide) (by decide),
   c5_amended.2 (chs "1") (chs "a") (chs "2") (chs "b") (by decide) (by decide)
      (by decide) (by decide) (by decide) (by decide) (by decide) (by decide)⟩

end WT

/-! ### Claim C8 — worktree existence check -/

namespace WT

theorem fieldsAux_ne_nil (l : List Char) : fieldsAux l ≠ [] := by
  cases l with
  | nil => simp [fieldsAux]
  | cons c s =>
    by_cases h : goIsSpace c = true
    · simp [fieldsAux, h]
    · simp only [fieldsAux, h]
      cases hs : fieldsAux s with
      | nil => simp
      | cons t ts => simp

theorem fieldsL_ne_nil {l : List Char} (h : ∃ c ∈ l, goIsSpace c = false) :
    fieldsL l ≠ [] := by
  induction l with
  | nil =>
    obtain ⟨c, hc, _⟩ := h
    exact absurd hc (List.not_mem_nil c)
  | cons c s ih =>
    by_cases hc : goIsSpace c = true
    · have hs : ∃ x ∈ s, goIsSpace x = false := by
        obtain ⟨x, hx, hxf⟩ := h
        rcases List.mem_cons.mp hx with rfl | hx
        · rw [hc] at hxf
          exact absurd hxf (by simp)
        · exact ⟨x, hx, hxf⟩
      have : fieldsL (c :: s) = fieldsL s := by
        simp [fieldsL, fieldsAux, hc]
      rw [this]
      exact ih hs
    · simp only [fieldsL, fieldsAux, hc]
      cases hs : fieldsAux s with
      | nil => exact absurd hs (fieldsAux_ne_nil s)
      | cons t ts => simp [List.filter]

theorem wtLineScan_eq_find {pat : List Char}
    (hpat : ∃ c ∈ pat, goIsSpace c = false) (lines : List (List Char)) :
    wtLineScan pat lines =
      match lines.find? (fun l => containsStr l pat) with
      | some l => ((fieldsL l).headD [], true)
      | none => ([], false) := by
  induction lines with
  | nil => rfl
  | cons l ls ih =>
    by_cases hl : containsStr l pat = true
    · have hne : fieldsL l ≠ [] := by
        apply fieldsL_ne_nil
        obtain ⟨c, hc, hcf⟩ := hpat
        exact ⟨c, mem_of_containsStr hl hc, hcf⟩
      have hfind : List.find? (fun x => containsStr x pat) (l :: ls) = some l := by
        simp [List.find?, hl]
      rw [hfind]
      cases hf : fieldsL l with
      | nil => exact absurd hf hne
      | cons f fs => simp [wtLineScan, hl, hf]
    · have hfind : List.find? (fun x => containsStr x pat) (l :: ls)
          = List.find? (fun x => containsStr x pat) ls := by
        simp [List.find?, hl]
      rw [hfind]
      simp only [wtLineScan, if_neg hl]
      exact ih

/-- Claim C8: `worktreeExists` matches `[branch]` against each line of the
listing and returns the first field of the first matching line with
`true`; when no line matches, or the listing command itself failed, it
returns the empty path and `false` (never an error).  The last conjunct
shows a matching line always has a first field. -/
theorem c8_worktree_exists (b out : List Char) :
    worktreeExists b none = ([], false) ∧
    worktreeExists b (some out) =
      (match (splitNL out).find? (fun l => containsStr l ('[' :: (b ++ [']']))) with
       | some l => ((fieldsL l).headD [], true)
       | none => ([], false)) ∧
    (∀ l : List Char, containsStr l ('[' :: (b ++ [']'])) = true → fieldsL l ≠ []) := by
  have hpat : ∃ c ∈ '[' :: (b ++ [']']), goIsSpace c = false :=
    ⟨'[', by simp, by decide⟩
  refine ⟨rfl, ?_, ?_⟩
  · exact wtLineScan_eq_find hpat (splitNL out)
  · intro l hl
    apply fieldsL_ne_nil
    obtain ⟨c, hc, hcf⟩ := hpat
    exact ⟨c, mem_of_containsStr hl hc, hcf⟩

theorem c8_worktree_exists_witness : fieldsL (chs "/p/x abc [feat]") ≠ [] :=
  (c8_worktree_exists (chs "feat") (chs "")).2.2 (chs "/p/x abc [feat]") (by decide)

end WT

/-! ### Claims C7 and C10 — branch enumeration -/

namespace WT

/-- Claim C7: the branch enumerator trims each line, skips empty lines,
`origin/HEAD` pointers and arrow lines, strips a leading `origin/`, skips
bare remote names, and deduplicates as a set; in particular `main` and
`origin/main` produce a single `main`, and the spec's scenario yields
exactly `{main, feature-x}`.  The final conjunct characterises membership
by the per-line pipeline. -/
theorem c7_branch_enumeration :
    getAvailableBranches (chs "main\nfeature-x\norigin/main\norigin/HEAD -> origin/main")
      = {chs "main", chs "feature-x"} ∧
    getAvailableBranches (chs "main\norigin/main") = {chs "main"} ∧
    (∀ l : List Char, (∀ c ∈ l, goIsSpace c = true) → processLine l = none) ∧
    (∀ l : List Char, containsStr (goTrimSpace l) (chs "->") = true →
      processLine l = none) ∧
    (∀ l : List Char, (chs "origin/HEAD").isPrefixOf (goTrimSpace l) = true →
      processLine l = none) ∧
    (∀ out b, b ∈ getAvailableBranches out ↔
      ∃ l ∈ splitNL out, processLine l = some b) := by
  refine ⟨by decide, by decide, ?_, ?_, ?_, ?_⟩
  · intro l h
    simp [processLine, goTrimSpace_all_space h]
  · intro l h
    by_cases hb : goTrimSpace l = []
    · simp [processLine, hb]
    · simp [processLine, hb, h]
  · intro l h
    by_cases hb : goTrimSpace l = []
    · simp [processLine, hb]
    · simp [processLine, hb, h]
  · intro out b
    simp [getAvailableBranches, List.mem_filterMap]

theorem c7_branch_enumeration_witness :
    processLine (chs " \t ") = none ∧
    processLine (chs "a -> b") = none ∧
    processLine (chs "origin/HEAD") = none :=
  ⟨c7_branch_enumeration.2.2.1 (chs " \t ") (by decide),
   c7_branch_enumeration.2.2.2.1 (chs "a -> b") (by decide),
   c7_branch_enumeration.2.2.2.2.1 (chs "origin/HEAD") (by decide)⟩

/-- Claim C10: only the literal prefix `origin/` is stripped — a branch
under any other remote, such as `upstream/feature`, keeps its prefix — and
after stripping only the exact bare names `origin` and `upstream` are
excluded. -/
theorem c10_origin_only :
    processLine (chs "upstream/feature") = some (chs "upstream/feature") ∧
    (∀ b : List Char, goTrimSpace b = b → b ≠ [] →
      (chs "origin/HEAD").isPrefixOf b = false →
      containsStr b (chs "->") = false →
      (chs "origin/").isPrefixOf b = false →
      b ≠ chs "origin" → b ≠ chs "upstream" →
      processLine b = some b) ∧
    (∀ b : List Char, goTrimSpace b = b → b ≠ [] →
      (chs "origin/HEAD").isPrefixOf b = false →
      containsStr b (chs "->") = false →
      (processLine b = none ↔
        trimPfx (chs "origin/") b = chs "origin" ∨
        trimPfx (chs "origin/") b = chs "upstream")) ∧
    processLine (chs "origin/origin") = none ∧
    processLine (chs "origin/upstream") = none ∧
    processLine (chs "origin/feature") = some (chs "feature") := by
  refine ⟨by decide, ?_, ?_, by decide, by decide, by decide⟩
  · intro b htrim hne hhead harrow hpre ho hu
    simp [processLine, htrim, hne, hhead, harrow, trimPfx, hpre, ho, hu]
  · intro b htrim hne hhead harrow
    by_cases h : trimPfx (chs "origin/") b = chs "origin" ∨
        trimPfx (chs "origin/") b = chs "upstream"
    · simp only [processLine, htrim, if_neg hne, hhead, harrow, Bool.or_self,
        Bool.false_eq_true, if_false]
      rcases h with h | h <;> simp [h]
    · push_neg at h
      simp [processLine, htrim, hne, hhead, harrow, h.1, h.2]

theorem c10_origin_only_witness :
    processLine (chs "feature-x") = some (chs "feature-x") ∧
    (processLine (chs "origin/main") = none ↔
      trimPfx (chs "origin/") (chs "origin/main") = chs "origin" ∨
      trimPfx (chs "origin/") (chs "origin/main") = chs "upstream") :=
  ⟨c10_origin_only.2.1 (chs "feature-x") (by decide) (by decide) (by decide)
      (by decide) (by decide) (by decide) (by decide),
   c10_origin_only.2.2.1 (chs "origin/main") (by decide) (by decide) (by decide)
      (by decide)⟩

end WT

/-! ### Claims C2 and C9 — reference extraction -/

namespace WT

theorem isPrefixOf_head {p s : List Char} {c : Char}
    (h : (c :: p).isPrefixOf s = true) : s.head? = some c := by
  obtain ⟨t, ht⟩ := List.isPrefixOf_iff_prefix.mp h
  subst ht
  rfl

theorem scanLast_none {M : List Char} :
    ∀ {s : List Char}, (∀ s', s' <:+ s → midDigits M s' = none) →
      scanLast M s = none := by
  intro s
  induction s with
  | nil =>
    intro h
    exact h [] (List.suffix_refl [])
  | cons c s ih =>
    intro h
    by_cases hc : c = '\n'
    · simp only [scanLast, if_pos hc]
      exact h (c :: s) (List.suffix_refl _)
    · simp only [scanLast, if_neg hc]
      rw [ih (fun s' hs' => h s' (hs'.trans (List.suffix_cons c s)))]
      exact h (c :: s) (List.suffix_refl _)

theorem scanLast_append {M V n : List Char}
    (hmid : midDigits M V = some n)
    (hVhead : ∀ c, V.head? = some c → c ≠ '\n')
    (hdeep : ∀ s', s' <:+ V → s' ≠ V → midDigits M s' = none) :
    ∀ u : List Char, (∀ c ∈ u, c ≠ '\n') → scanLast M (u ++ V) = some n := by
  intro u
  induction u with
  | nil =>
    intro _
    rw [List.nil_append]
    cases V with
    | nil => exact hmid
    | cons c s =>
      have hc : c ≠ '\n' := hVhead c rfl
      simp only [scanLast, if_neg hc]
      have hnone : scanLast M s = none := by
        apply scanLast_none
        intro s' hs'
        apply hdeep s' (hs'.trans (List.suffix_cons c s))
        intro hq
        have := hs'.length_le
        rw [hq] at this
        simp at this
      rw [hnone]
      exact hmid
  | cons c u ih =>
    intro hu
    have hc : c ≠ '\n' := hu c (List.mem_cons_self c u)
    simp only [List.cons_append, scanLast, if_neg hc, List.append_eq]
    rw [ih (fun x hx => hu x (List.mem_cons_of_mem c hx))]

theorem midDigits_self {M n r : List Char}
    (hn : n ≠ []) (hdig : ∀ c ∈ n, isDigitCh c = true)
    (hr : ∀ c, r.head? = some c → isDigitCh c = false) :
    midDigits M (M ++ (n ++ r)) = some n := by
  unfold midDigits
  rw [if_pos (List.isPrefixOf_iff_prefix.mpr (List.prefix_append M (n ++ r))),
    List.drop_left, takeWhile_app hdig hr, if_neg hn]

/-- Claim C2: the reference extractor accepts a pure-digit input unchanged,
extracts the digits from the two recognised URL shapes, and rejects
everything else — including URL look-alikes from unrecognised hosts — with
an error that names the offending input. -/
theorem c2_reference_extractor :
    (∀ s : List Char, s ≠ [] → (∀ c ∈ s, isDigitCh c = true) →
      getPRNumber s = .ok s) ∧
    getPRNumber (chs "123") = .ok (chs "123") ∧
    getPRNumber (chs "https://github.com/o/r/pull/456") = .ok (chs "456") ∧
    getPRNumber (chs "https://gitlab.com/o/r/-/merge_requests/789")
      = .ok (chs "789") ∧
    getPRNumber (chs "not-a-number")
      = .error (chs "invalid PR/MR number or URL: not-a-number") ∧
    getPRNumber (chs "https://bitbucket.org/o/r/pull/456")
      = .error (chs "invalid PR/MR number or URL: https://bitbucket.org/o/r/pull/456") ∧
    (∀ s e : List Char, getPRNumber s = .error e →
      e = chs "invalid PR/MR number or URL: " ++ s) := by
  refine ⟨?_, by rfl, by rfl, by rfl, by rfl, by rfl, ?_⟩
  · intro s hne hdig
    have hg : githubNumber s = none := by
      unfold githubNumber
      cases hp : (chs "https://github.com/").isPrefixOf s
      · rfl
      · exfalso
        have he : chs "https://github.com/" = 'h' :: chs "ttps://github.com/" := by
          decide
        rw [he] at hp
        have hh := mem_of_head?_eq (isPrefixOf_head hp)
        exact absurd (hdig 'h' hh) (by decide)
    have hl : gitlabNumber s = none := by
      unfold gitlabNumber
      cases hp : (chs "https://gitlab.com/").isPrefixOf s
      · rfl
      · exfalso
        have he : chs "https://gitlab.com/" = 'h' :: chs "ttps://gitlab.com/" := by
          decide
        rw [he] at hp
        have hh := mem_of_head?_eq (isPrefixOf_head hp)
        exact absurd (hdig 'h' hh) (by decide)
    have hall : s.all isDigitCh = true := List.all_eq_true.mpr hdig
    simp [getPRNumber, hg, hl, hne, hall]
  · intro s e h
    unfold getPRNumber at h
    cases hg : githubNumber s <;> rw [hg] at h
    · cases hl : gitlabNumber s <;> rw [hl] at h
      · by_cases hd : (decide (s ≠ []) && s.all isDigitCh) = true
        · rw [if_pos hd] at h
          exact absurd h (by simp)
        · rw [if_neg hd] at h
          simpa using h.symm
      · exact absurd h (by simp)
    · exact absurd h (by simp)

theorem c2_reference_extractor_witness :
    getPRNumber (chs "42") = .ok (chs "42") ∧
    chs "invalid PR/MR number or URL: x"
      = chs "invalid PR/MR number or URL: " ++ chs "x" :=
  ⟨c2_reference_extractor.1 (chs "42") (by decide) (by decide),
   c2_reference_extractor.2.2.2.2.2.2 (chs "x")
     (chs "invalid PR/MR number or URL: x") (by rfl)⟩

end WT

namespace WT

/-- Claim C9 counterexample: for an input whose path contains two
`/pull/<digits>` segments, the greedy `.*` makes the extractor return the
digits after the LAST occurrence (`"34"`), not the first maximal digit run
after `pull/` (`"12"`). -/
theorem c9_counterexample :
    getPRNumber (chs "https://github.com/o/pull/12/pull/34") = .ok (chs "34") ∧
    chs "34" ≠ chs "12" :=
  ⟨by rfl, by decide⟩

/-- Claim C9 amended: the URL patterns are anchored only at the start, so
arbitrary characters may follow the captured digits; the capture is the
maximal digit run after the LAST occurrence of `/pull/` (resp. the GitLab
merge-request mid part) that is followed by a digit — the greedy `.*`
prefers the deepest match position (and likewise for the GitLab shape). -/
theorem c9_amended :
    (∀ u n r : List Char,
      (∀ c ∈ u, c ≠ '\n') →
      n ≠ [] → (∀ c ∈ n, isDigitCh c = true) →
      (∀ c, r.head? = some c → isDigitCh c = false) →
      (∀ s' ∈ (chs "/pull/" ++ (n ++ r)).tails, s' ≠ chs "/pull/" ++ (n ++ r) →
        midDigits (chs "/pull/") s' = none) →
      getPRNumber (chs "https://github.com/" ++ (u ++ (chs "/pull/" ++ (n ++ r))))
        = .ok n) ∧
    (∀ u n r : List Char,
      (∀ c ∈ u, c ≠ '\n') →
      n ≠ [] → (∀ c ∈ n, isDigitCh c = true) →
      (∀ c, r.head? = some c → isDigitCh c = false) →
      (∀ s' ∈ (chs "/-/merge_requests/" ++ (n ++ r)).tails,
        s' ≠ chs "/-/merge_requests/" ++ (n ++ r) →
        midDigits (chs "/-/merge_requests/") s' = none) →
      getPRNumber
          (chs "https://gitlab.com/" ++ (u ++ (chs "/-/merge_requests/" ++ (n ++ r))))
        = .ok n) := by
  constructor
  · intro u n r hu hn hdig hr hdeep
    have hgh : githubNumber
        (chs "https://github.com/" ++ (u ++ (chs "/pull/" ++ (n ++ r)))) = some n := by
      unfold githubNumber
      rw [if_pos (List.isPrefixOf_iff_prefix.mpr (List.prefix_append _ _)),
        List.drop_left]
      apply scanLast_append (midDigits_self hn hdig hr) ?_ ?_ u hu
      · intro c hc
        rw [List.head?_append_of_ne_nil _ (by decide)] at hc
        have h0 : (chs "/pull/").head? = some '/' := by decide
        rw [h0] at hc
        injection hc with hc
        subst hc
        decide
      · intro s' hs' hne'
        exact hdeep s' ((List.mem_tails _ _).mpr hs') hne'
    simp [getPRNumber, hgh]
  · intro u n r hu hn hdig hr hdeep
    have hgl : gitlabNumber
        (chs "https://gitlab.com/" ++ (u ++ (chs "/-/merge_requests/" ++ (n ++ r))))
        = some n := by
      unfold gitlabNumber
      rw [if_pos (List.isPrefixOf_iff_prefix.mpr (List.prefix_append _ _)),
        List.drop_left]
      apply scanLast_append (midDigits_self hn hdig hr) ?_ ?_ u hu
      · intro c hc
        rw [List.head?_append_of_ne_nil _ (by decide)] at hc
        have h0 : (chs "/-/merge_requests/").head? = some '/' := by decide
        rw [h0] at hc
        injection hc with hc
        subst hc
        decide
      · intro s' hs' hne'
        exact hdeep s' ((List.mem_tails _ _).mpr hs') hne'
    have hgh : githubNumber
        (chs "https://gitlab.com/" ++ (u ++ (chs "/-/merge_requests/" ++ (n ++ r))))
        = none := by
      unfold githubNumber
      cases hp : (chs "https://github.com/").isPrefixOf
          (chs "https://gitlab.com/" ++ (u ++ (chs "/-/merge_requests/" ++ (n ++ r))))
      · rfl
      · exfalso
        obtain ⟨t, ht⟩ := List.isPrefixOf_iff_prefix.mp hp
        have h9 : (chs "https://github.com/").get? 11 = some 'h' := by decide
        have h9' : ((chs "https://github.com/") ++ t).get? 11 = some 'h' := by
          rw [List.get?_append (by decide)]
          exact h9
        rw [ht] at h9'
        have h9'' : (chs "https://gitlab.com/"
            ++ (u ++ (chs "/-/merge_requests/" ++ (n ++ r)))).get? 11 = some 'l' := by
          rw [List.get?_append (by decide)]
          decide
        rw [h9'] at h9''
        exact absurd h9'' (by decide)
    simp [getPRNumber, hgh, hgl]

theorem c9_amended_witness :
    getPRNumber (chs "https://github.com/"
        ++ (chs "o/r" ++ (chs "/pull/" ++ (chs "456" ++ chs "?tab=files"))))
      = .ok (chs "456") ∧
    getPRNumber (chs "https://gitlab.com/"
        ++ (chs "grp/proj" ++ (chs "/-/merge_requests/" ++ (chs "789" ++ chs "#note"))))
      = .ok (chs "789") :=
  ⟨c9_amended.1 (chs "o/r") (chs "456") (chs "?tab=files")
      (by decide) (by decide) (by decide) (by decide) (by decide),
   c9_amended.2 (chs "grp/proj") (chs "789") (chs "#note")
      (by decide) (by decide) (by decide) (by decide) (by decide)⟩

end WT

/-! ### Claim C6 — Parser B acceptance conditions -/

namespace WT

theorem parenAfterWsStar_paren {s : List Char} (h : parenAfterWsStar s = true) :
    '(' ∈ s := by
  induction s with
  | nil => exact absurd h (by simp [parenAfterWsStar])
  | cons c s ih =>
    simp only [parenAfterWsStar, Bool.or_eq_true, Bool.and_eq_true,
      decide_eq_true_eq] at h
    rcases h with rfl | ⟨_, h⟩
    · exact List.mem_cons_self _ _
    · exact List.mem_cons_of_mem _ (ih h)

theorem wsThenParen_paren {s : List Char} (h : wsThenParen s = true) : '(' ∈ s := by
  cases s with
  | nil => exact absurd h (by simp [wsThenParen])
  | cons c s =>
    simp only [wsThenParen, Bool.and_eq_true] at h
    exact List.mem_cons_of_mem _ (parenAfterWsStar_paren h.2)

theorem lazyTitle_paren {s t : List Char} (h : lazyTitle s = some t) : '(' ∈ s := by
  induction s generalizing t with
  | nil => exact absurd h (by simp [lazyTitle])
  | cons c s ih =>
    simp only [lazyTitle] at h
    by_cases hc : c = '\n'
    · rw [if_pos hc] at h
      exact absurd h (by simp)
    · rw [if_neg hc] at h
      by_cases hw : wsThenParen s = true
      · exact List.mem_cons_of_mem _ (wsThenParen_paren hw)
      · rw [if_neg hw] at h
        rcases ho : lazyTitle s with _ | t'
        · rw [ho] at h
          exact absurd h (by simp)
        · exact List.mem_cons_of_mem _ (ih ho)

theorem tailMatch_paren {s t : List Char} (h : tailMatch s = some t) : '(' ∈ s := by
  induction s generalizing t with
  | nil => exact absurd h (by simp [tailMatch])
  | cons c s ih =>
    simp only [tailMatch] at h
    by_cases hc : isWsRe c = true
    · rw [if_pos hc] at h
      rcases ho : tailMatch s with _ | t'
      · rw [ho] at h
        exact List.mem_cons_of_mem _ (lazyTitle_paren h)
      · rw [ho] at h
        exact List.mem_cons_of_mem _ (ih ho)
    · rw [if_neg hc] at h
      exact absurd h (by simp)

theorem mrMatch_some {l n t : List Char} (h : mrMatch l = some (n, t)) :
    (∃ c s', l = '!' :: (c :: s') ∧ isDigitCh c = true) ∧ '(' ∈ l := by
  cases l with
  | nil => exact absurd h (by simp [mrMatch])
  | cons c r0 =>
    simp only [mrMatch] at h
    by_cases hc : c = '!'
    case neg => rw [if_neg hc] at h; exact absurd h (by simp)
    subst hc
    rw [if_pos rfl] at h
    by_cases hd : r0.takeWhile isDigitCh = []
    · rw [if_pos hd] at h
      exact absurd h (by simp)
    · rw [if_neg hd] at h
      by_cases hw : (r0.dropWhile isDigitCh).takeWhile isWsRe = []
      · rw [if_pos hw] at h
        exact absurd h (by simp)
      · rw [if_neg hw] at h
        by_cases hs :
            ((r0.dropWhile isDigitCh).dropWhile isWsRe).takeWhile
              (fun c => !isWsRe c) = []
        · rw [if_pos hs] at h
          exact absurd h (by simp)
        · rw [if_neg hs] at h
          rcases htm : tailMatch (((r0.dropWhile isDigitCh).dropWhile
              isWsRe).dropWhile (fun c => !isWsRe c)) with _ | t'
          · rw [htm] at h
            exact absurd h (by simp)
          · rw [htm] at h
            constructor
            · cases r0 with
              | nil => exact absurd hd (by simp)
              | cons c1 s1 =>
                rw [List.takeWhile_cons] at hd
                by_cases h1 : isDigitCh c1 = true
                · exact ⟨c1, s1, rfl, h1⟩
                · rw [if_neg h1] at hd
                  exact absurd rfl hd
            · have hp := tailMatch_paren htm
              exact List.mem_cons_of_mem _
                (mem_of_mem_dropWhile (mem_of_mem_dropWhile
                  (mem_of_mem_dropWhile hp)))

/-- Claim C6: Parser B accepts a line only if it starts with `!` followed
by a digit and contains an opening parenthesis (a `!<digits>` line without
the paren group contributes nothing), the status token never surfaces in
the label, and `OPEN`/`MERGED`/`CLOSED` all parse identically on the spec's
scenario line. -/
theorem c6_parser_b_acceptance :
    (∀ l n t : List Char, mrMatch l = some (n, t) →
      (∃ c s', l = '!' :: (c :: s') ∧ isDigitCh c = true) ∧ '(' ∈ l) ∧
    (∀ l : List Char, '(' ∉ l → mrMatch l = none) ∧
    getOpenMRs (chs "!123  OPEN  Fix bug  (feature) ← (main)")
      = ([chs "123"], [chs "!123: Fix bug"]) ∧
    getOpenMRs (chs "!123  MERGED  Fix bug  (feature) ← (main)")
      = ([chs "123"], [chs "!123: Fix bug"]) ∧
    getOpenMRs (chs "!123  CLOSED  Fix bug  (feature) ← (main)")
      = ([chs "123"], [chs "!123: Fix bug"]) := by
  refine ⟨fun l n t h => mrMatch_some h, ?_, by rfl, by rfl, by rfl⟩
  intro l hl
  rcases hm : mrMatch l with _ | ⟨n, t⟩
  · rfl
  · exact absurd (mrMatch_some hm).2 hl

theorem c6_parser_b_acceptance_witness :
    ((∃ c s', chs "!1 X y (b)" = '!' :: (c :: s') ∧ isDigitCh c = true) ∧
      '(' ∈ chs "!1 X y (b)") ∧
    mrMatch (chs "no parens here") = none :=
  ⟨c6_parser_b_acceptance.1 (chs "!1 X y (b)") (chs "1") (chs "y") (by rfl),
   c6_parser_b_acceptance.2.1 (chs "no parens here") (by decide)⟩

end WT

/-! ### Claim C4 — Parser B title normalization (corrected) -/

namespace WT

theorem not_isWsRe_of_not_goIsSpace {c : Char} (h : goIsSpace c = false) :
    isWsRe c = false := by
  cases hw : isWsRe c
  · rfl
  · rw [isWsRe_goIsSpace hw] at h
    exact absurd h (by simp)

theorem getLast?_cons_some (c : Char) (l : List Char) :
    ∃ d, (c :: l).getLast? = some d := by
  induction l generalizing c with
  | nil => exact ⟨c, rfl⟩
  | cons c2 l ih =>
    rw [List.getLast?_cons_cons]
    exact ih c2

theorem mem_of_getLast?_eq : ∀ {l : List Char} {c : Char},
    l.getLast? = some c → c ∈ l := by
  intro l
  induction l with
  | nil =>
    intro c h
    exact absurd h (by simp)
  | cons d s ih =>
    intro c h
    cases s with
    | nil =>
      have hd : (some d : Option Char) = some c := h
      injection hd with hd
      simp [hd]
    | cons d2 s2 =>
      rw [List.getLast?_cons_cons] at h
      exact List.mem_cons_of_mem _ (ih h)

theorem paws_true {w rest : List Char} (hws : ∀ c ∈ w, isWsRe c = true) :
    parenAfterWsStar (w ++ '(' :: rest) = true := by
  induction w with
  | nil => simp [parenAfterWsStar]
  | cons c w ih =>
    simp only [List.cons_append, parenAfterWsStar, Bool.or_eq_true,
      Bool.and_eq_true, decide_eq_true_eq]
    right
    exact ⟨hws c (by simp), ih (fun x hx => hws x (by simp [hx]))⟩

theorem paws_false {u : List Char} (hex : ∃ c ∈ u, isWsRe c = false)
    (hp : '(' ∉ u) (S : List Char) : parenAfterWsStar (u ++ S) = false := by
  induction u with
  | nil =>
    obtain ⟨c, hc, _⟩ := hex
    exact absurd hc (List.not_mem_nil c)
  | cons c u ih =>
    have hcp : c ≠ '(' := fun hq => hp (by simp [hq])
    simp only [List.cons_append, parenAfterWsStar, Bool.or_eq_false_iff,
      Bool.and_eq_false_iff, decide_eq_false_iff_not]
    refine ⟨hcp, ?_⟩
    by_cases hw : isWsRe c = true
    · right
      apply ih
      · obtain ⟨x, hx, hxf⟩ := hex
        rcases List.mem_cons.mp hx with rfl | hx
        · rw [hw] at hxf
          exact absurd hxf (by simp)
        · exact ⟨x, hx, hxf⟩
      · exact fun hq => hp (List.mem_cons_of_mem _ hq)
    · left
      simpa using hw

theorem wsThenParen_true {w rest : List Char} (hw : w ≠ [])
    (hws : ∀ c ∈ w, isWsRe c = true) :
    wsThenParen (w ++ '(' :: rest) = true := by
  cases w with
  | nil => exact absurd rfl hw
  | cons c w =>
    simp only [List.cons_append, wsThenParen, Bool.and_eq_true]
    exact ⟨hws c (by simp), paws_true (fun x hx => hws x (by simp [hx]))⟩

theorem wsThenParen_false {u : List Char} (hu : u ≠ []) (hp : '(' ∉ u)
    (hlast : ∀ c, u.getLast? = some c → isWsRe c = false) (S : List Char) :
    wsThenParen (u ++ S) = false := by
  cases u with
  | nil => exact absurd rfl hu
  | cons c u' =>
    simp only [List.cons_append, wsThenParen, Bool.and_eq_false_iff]
    by_cases hw : isWsRe c = true
    · right
      cases u' with
      | nil =>
        exfalso
        have hlc := hlast c rfl
        rw [hlc] at hw
        exact absurd hw (by simp)
      | cons c2 u'' =>
        apply paws_false
        · obtain ⟨d, hd⟩ := getLast?_cons_some c2 u''
          refine ⟨d, mem_of_getLast?_eq hd, hlast d ?_⟩
          rw [List.getLast?_cons_cons]
          exact hd
        · exact fun hq => hp (List.mem_cons_of_mem _ hq)
    · left
      simpa using hw

theorem tailMatch_cons (c : Char) (s : List Char) :
    tailMatch (c :: s) =
      if isWsRe c = true then
        match tailMatch s with
        | some t => some t
        | none => lazyTitle s
      else none := rfl

theorem lazyTitle_cons (c : Char) (s : List Char) :
    lazyTitle (c :: s) =
      if c = '\n' then none
      else if wsThenParen s = true then some [c]
      else (lazyTitle s).map (c :: ·) := rfl

theorem tailMatch_head_none {V : List Char}
    (hV : ∀ c, V.head? = some c → isWsRe c = false) : tailMatch V = none := by
  cases V with
  | nil => rfl
  | cons c s =>
    have := hV c rfl
    simp [tailMatch, this]

theorem tailMatch_ws_run {w V t : List Char} (hw : w ≠ [])
    (hws : ∀ c ∈ w, isWsRe c = true)
    (hV : ∀ c, V.head? = some c → isWsRe c = false)
    (hlt : lazyTitle V = some t) :
    tailMatch (w ++ V) = some t := by
  induction w with
  | nil => exact absurd rfl hw
  | cons c w' ih =>
    have hc : isWsRe c = true := hws c (by simp)
    cases w' with
    | nil =>
      rw [List.singleton_append, tailMatch_cons, if_pos hc, tailMatch_head_none hV]
      exact hlt
    | cons c2 w'' =>
      rw [List.cons_append, tailMatch_cons, if_pos hc,
        ih (by simp) (fun x hx => hws x (by simp [hx]))]

theorem lazyTitle_exact : ∀ {t : List Char} (S : List Char), t ≠ [] →
    '\n' ∉ t → '(' ∉ t →
    (∀ c, t.getLast? = some c → isWsRe c = false) →
    wsThenParen S = true → lazyTitle (t ++ S) = some t := by
  intro t
  induction t with
  | nil =>
    intro S h
    exact absurd rfl h
  | cons c t' ih =>
    intro S _ hnl hp hlast hS
    have hcnl : c ≠ '\n' := fun hq => hnl (by simp [hq])
    cases t' with
    | nil =>
      rw [List.singleton_append, lazyTitle_cons, if_neg hcnl, if_pos hS]
    | cons c2 t'' =>
      have hmid0 : wsThenParen ((c2 :: t'') ++ S) = false := by
        apply wsThenParen_false (by simp)
          (fun hq => hp (List.mem_cons_of_mem _ hq)) ?_ S
        intro d hd
        apply hlast d
        rw [List.getLast?_cons_cons]
        exact hd
      have hrec0 : lazyTitle ((c2 :: t'') ++ S) = some (c2 :: t'') := by
        apply ih S (by simp) (fun hq => hnl (List.mem_cons_of_mem _ hq))
          (fun hq => hp (List.mem_cons_of_mem _ hq)) ?_ hS
        intro d hd
        apply hlast d
        rw [List.getLast?_cons_cons]
        exact hd
      rw [List.cons_append, lazyTitle_cons, if_neg hcnl,
        if_neg (by simpa using hmid0), hrec0]
      rfl

/-- Claim C4 counterexample: the title of the accepted line
`"!123  OPEN  Fix  bug  (feature) ← (main)"` keeps its internal double
space: the produced label is `"!123: Fix  bug"`, so internal multi-space
runs are NOT collapsed. -/
theorem c4_counterexample :
    (getOpenMRs (chs "!123  OPEN  Fix  bug  (feature) ← (main)")).2
      = [chs "!123: Fix  bug"] ∧
    containsStr (chs "!123: Fix  bug") (chs "  ") = true :=
  ⟨by rfl, by rfl⟩

/-- Claim C4 amended: the title of an accepted line is everything between
the status token and the first whitespace-plus-`(` occurrence, trimmed of
surrounding whitespace only; internal whitespace of the title — including
multi-space runs — is preserved verbatim in the label. -/
theorem c4_amended :
    ∀ n st t w1 w2 w3 rest : List Char,
      n ≠ [] → (∀ c ∈ n, isDigitCh c = true) →
      st ≠ [] → (∀ c ∈ st, isWsRe c = false) →
      w1 ≠ [] → (∀ c ∈ w1, isWsRe c = true) →
      w2 ≠ [] → (∀ c ∈ w2, isWsRe c = true) →
      w3 ≠ [] → (∀ c ∈ w3, isWsRe c = true) →
      t ≠ [] → '\n' ∉ t → '(' ∉ t →
      (∀ c, t.head? = some c → goIsSpace c = false) →
      (∀ c, t.getLast? = some c → goIsSpace c = false) →
      mrMatch ('!' :: (n ++ (w1 ++ (st ++ (w2 ++ (t ++ (w3 ++ ('(' :: rest))))))))
          = some (n, t) ∧
      (mrPairs ['!' :: (n ++ (w1 ++ (st ++ (w2 ++ (t ++ (w3 ++ ('(' :: rest)))))))]).2
          = ['!' :: (n ++ ':' :: ' ' :: t)] := by
  intro n st t w1 w2 w3 rest hn hdig hst hstf hw1 hw1t hw2 hw2t hw3 hw3t ht htnl
    htp hthead htlast
  have hb1 : ∀ c,
      (w1 ++ (st ++ (w2 ++ (t ++ (w3 ++ ('(' :: rest)))))).head? = some c →
      isDigitCh c = false := by
    intro c hc
    rw [List.head?_append_of_ne_nil _ hw1] at hc
    exact goIsSpace_not_isDigitCh (isWsRe_goIsSpace (hw1t c (mem_of_head?_eq hc)))
  have hb2 : ∀ c, (st ++ (w2 ++ (t ++ (w3 ++ ('(' :: rest))))).head? = some c →
      isWsRe c = false := by
    intro c hc
    rw [List.head?_append_of_ne_nil _ hst] at hc
    exact hstf c (mem_of_head?_eq hc)
  have hstt : ∀ c ∈ st, (!isWsRe c) = true := by
    intro c hc
    simp [hstf c hc]
  have hb3 : ∀ c, (w2 ++ (t ++ (w3 ++ ('(' :: rest)))).head? = some c →
      (!isWsRe c) = false := by
    intro c hc
    rw [List.head?_append_of_ne_nil _ hw2] at hc
    simp [hw2t c (mem_of_head?_eq hc)]
  have hVhead : ∀ c, (t ++ (w3 ++ ('(' :: rest))).head? = some c →
      isWsRe c = false := by
    intro c hc
    rw [List.head?_append_of_ne_nil _ ht] at hc
    exact not_isWsRe_of_not_goIsSpace (hthead c hc)
  have hlt : lazyTitle (t ++ (w3 ++ ('(' :: rest))) = some t := by
    apply lazyTitle_exact _ ht htnl htp
      (fun c hc => not_isWsRe_of_not_goIsSpace (htlast c hc))
    exact wsThenParen_true hw3 hw3t
  have hmatch :
      mrMatch ('!' :: (n ++ (w1 ++ (st ++ (w2 ++ (t ++ (w3 ++ ('(' :: rest))))))))
        = some (n, t) := by
    simp only [mrMatch]
    rw [if_pos trivial, takeWhile_app hdig hb1, dropWhile_app hdig hb1, if_neg hn,
      takeWhile_app hw1t hb2, dropWhile_app hw1t hb2, if_neg hw1,
      takeWhile_app hstt hb3, dropWhile_app hstt hb3, if_neg hst,
      tailMatch_ws_run hw2 hw2t hVhead hlt]
  refine ⟨hmatch, ?_⟩
  have htr : goTrimSpace t = t := goTrimSpace_eq_self hthead htlast
  simp only [mrPairs, hmatch, htr]

theorem c4_amended_witness :
    mrMatch ('!' :: (chs "123" ++ (chs "  " ++ (chs "OPEN" ++ (chs "  " ++
        (chs "Fix  bug" ++ (chs "  " ++ ('(' :: chs "feature) ← (main)"))))))))
      = some (chs "123", chs "Fix  bug") ∧
    (mrPairs ['!' :: (chs "123" ++ (chs "  " ++ (chs "OPEN" ++ (chs "  " ++
        (chs "Fix  bug" ++ (chs "  " ++ ('(' :: chs "feature) ← (main)")))))))]).2
      = ['!' :: (chs "123" ++ ':' :: ' ' :: chs "Fix  bug")] :=
  c4_amended (chs "123") (chs "OPEN") (chs "Fix  bug") (chs "  ") (chs "  ")
    (chs "  ") (chs "feature) ← (main)") (by decide) (by decide) (by decide)
    (by decide) (by decide) (by decide) (by decide) (by decide) (by decide)
    (by decide) (by decide) (by decide) (by decide) (by decide) (by decide)

end WT
